import Mathlib

/-!
# Verification of `generate_openapi.py` (openapi-from-chrome)

A shallow embedding of the core of
`src/openapi-from-chrome/scripts/generate_openapi.py`: schema inference
(`infer_schema_from_value`), URL/path normalization (`normalize_path`),
per-exchange parsing (`parse_network_request`) and aggregation
(`generate_openapi_spec`), together with theorems settling the spec claims.

Conventions of the embedding:
* Python `dict`/JSON values are modelled by the inductive `Json`; Python dicts
  are insertion-ordered association lists (`List (String × Json)`), with
  `dictInsert` mirroring Python's `d[k] = v` (replace in place, else append).
* Python floats are carried as opaque literals (constructor `Json.float`);
  no float arithmetic occurs in the source.
* `json.loads` is a stdlib collaborator, not repository code: it is passed in
  as a parameter `loads : String → Option Json` (`none` = `JSONDecodeError`);
  every theorem quantifies over it, and concrete instances are supplied in
  witnesses.
* `urllib.parse.urlparse` / `parse_qs` are modelled for the URL shapes the
  script consumes (`scheme://netloc/path?query#fragment`, or a scheme-less
  path); percent-decoding is not modelled (no claim depends on it).
-/

/-- A JSON value as manipulated by the Python script (`Any` from `json.loads`).
Python floats are kept as opaque literals: the script never computes with
them, it only tags them `"number"` and echoes them as examples. -/
inductive Json where
  | null
  | bool (b : Bool)
  | int (n : Int)
  | float (lit : String)
  | str (s : String)
  | arr (items : List Json)
  | obj (fields : List (String × Json))

/-- Exact (case-sensitive) association-list lookup: Python `dict.get(key)`. -/
def alistGet {α : Type} : List (String × α) → String → Option α
  | [], _ => none
  | (k, v) :: rest, key => if k = key then some v else alistGet rest key

/-- Python `d[k] = v` on an insertion-ordered dict: replace the value in place
when the key is present, otherwise append the pair at the end. -/
def dictInsert {α : Type} : List (String × α) → String → α → List (String × α)
  | [], key, v => [(key, v)]
  | (k, w) :: rest, key, v =>
      if k = key then (k, v) :: rest else (k, w) :: dictInsert rest key v

/-- Field access on a JSON object (`schema["items"]` etc.). -/
def getField (j : Json) (key : String) : Option Json :=
  match j with
  | .obj fields => alistGet fields key
  | _ => none

/-- The keys a dict-inferred schema marks `required`: keys whose value is not
`None` (`if val is not None: required.append(key)`), in iteration order. -/
def requiredKeys : List (String × Json) → List String
  | [] => []
  | (k, v) :: rest =>
      match v with
      | .null => requiredKeys rest
      | _ => k :: requiredKeys rest

mutual
/-- `infer_schema_from_value(value, example)` from the source: infer a JSON
schema dict from a value.  The Python `isinstance` chain tests `bool` before
`int` (bool is a subclass of int); here the two are distinct constructors,
matched in the same order. The `ex` parameter is Python's `example` kwarg. -/
def infer_schema_from_value (value : Json) (ex : Bool) : Json :=
  match value with
  | .null =>
      if ex then .obj [("type", .str "null"), ("example", .null)]
      else .obj [("type", .str "null")]
  | .bool b =>
      .obj ([("type", .str "boolean")] ++ (if ex then [("example", .bool b)] else []))
  | .int n =>
      .obj ([("type", .str "integer")] ++ (if ex then [("example", .int n)] else []))
  | .float lit =>
      .obj ([("type", .str "number")] ++ (if ex then [("example", .float lit)] else []))
  | .str s =>
      .obj ([("type", .str "string")] ++ (if ex then [("example", .str s)] else []))
  | .arr [] => .obj [("type", .str "array"), ("items", .obj [])]
  | .arr (x :: xs) =>
      let item := infer_schema_from_value x ex
      .obj ([("type", .str "array"), ("items", item)]
        ++ (if ex then [("example", .arr (x :: xs))] else []))
  | .obj fields =>
      let properties := inferProps fields ex
      let required := requiredKeys fields
      .obj ([("type", .str "object"), ("properties", .obj properties)]
        ++ (if required.isEmpty then [] else [("required", .arr (required.map .str))])
        ++ (if ex then [("example", .obj fields)] else []))

/-- The property map of an object schema: each property's schema inferred
recursively (`properties[key] = infer_schema_from_value(val, example)`). -/
def inferProps (fields : List (String × Json)) (ex : Bool) : List (String × Json) :=
  match fields with
  | [] => []
  | (k, v) :: rest => (k, infer_schema_from_value v ex) :: inferProps rest ex
end

example : getField (infer_schema_from_value (.bool true) true) "type" = some (.str "boolean") := by
  rfl

example : getField (infer_schema_from_value (.arr [.int 3, .str "x"]) false) "items"
    = some (infer_schema_from_value (.int 3) false) := by rfl

/-! ## Character-list string primitives

Python string operations, embedded as structurally recursive functions over
`List Char` (a `String` is its list of characters) so that every definition
evaluates inside the kernel. -/

/-- Python `s.split(sep)` for a one-character separator: keeps empty chunks,
`"".split(sep) = [""]`. -/
def splitChar (sep : Char) : List Char → List (List Char)
  | [] => [[]]
  | c :: cs =>
    match splitChar sep cs with
    | [] => [[]]
    | h :: t => if c = sep then [] :: h :: t else (c :: h) :: t

/-- Python `s.split(sep, 1)` for a one-character separator: split at the
first occurrence; `none` when the separator is absent. -/
def splitCharFirst (sep : Char) : List Char → Option (List Char × List Char)
  | [] => none
  | c :: cs =>
    if c = sep then some ([], cs)
    else (splitCharFirst sep cs).map (fun p => (c :: p.1, p.2))

/-- Python `url.split("://", 1)`: split at the first occurrence of `://`. -/
def splitSchemeSep : List Char → Option (List Char × List Char)
  | ':' :: '/' :: '/' :: rest => some ([], rest)
  | c :: rest => (splitSchemeSep rest).map (fun p => (c :: p.1, p.2))
  | [] => none

/-- Python `'/'.join(parts)`. -/
def joinSlash : List String → String
  | [] => ""
  | [x] => x
  | x :: y :: t => x ++ "/" ++ joinSlash (y :: t)

/-- Does `needle` occur at the start of `hay`? -/
def startsWithChars : List Char → List Char → Bool
  | [], _ => true
  | _ :: _, [] => false
  | a :: as, b :: bs => a = b && startsWithChars as bs

/-- Python `needle in hay` on strings: substring occurrence anywhere. -/
def substrIn (needle : List Char) : List Char → Bool
  | [] => needle.isEmpty
  | c :: rest => startsWithChars needle (c :: rest) || substrIn needle rest

/-- Python `needle in hay` on `String`. -/
def substrOf (needle hay : String) : Bool := substrIn needle.data hay.data

/-- Decimal digit characters of `n`, most significant first (fuel-indexed so
the recursion is structural; `fuel ≥ 1` suffices for `n < 10` etc.). -/
def natDigitsAux : Nat → Nat → List Char
  | 0, _ => []
  | fuel+1, n =>
    if n < 10 then [Char.ofNat (48 + n)]
    else natDigitsAux fuel (n / 10) ++ [Char.ofNat (48 + n % 10)]

/-- Python `str` of an integer. -/
def intStr : Int → String
  | .ofNat m => ⟨natDigitsAux (m+1) m⟩
  | .negSucc m => ⟨'-' :: natDigitsAux (m+2) (m+1)⟩

/-- Python `int` of an all-digit string. -/
def natOfDigits (cs : List Char) : Nat :=
  cs.foldl (fun n c => 10 * n + (c.toNat - 48)) 0

/-- Python `str.lower` (character-wise). -/
def lowerStr (s : String) : String := ⟨s.data.map Char.toLower⟩

/-- Python `str.upper` (character-wise). -/
def upperStr (s : String) : String := ⟨s.data.map Char.toUpper⟩

/-- Python `str.isdigit` (ASCII digits). -/
def isdigit (s : String) : Bool := !s.data.isEmpty && s.data.all Char.isDigit

/-- Strict lexicographic comparison of character lists by code point:
Python `<` on strings. -/
def charListLt : List Char → List Char → Bool
  | _, [] => false
  | [], _ :: _ => true
  | a :: as, b :: bs =>
    if a.toNat < b.toNat then true
    else if b.toNat < a.toNat then false
    else charListLt as bs

/-- Python `<=` on strings: the negation of the reversed strict order. -/
def strLeB (a b : String) : Bool := !(charListLt b.data a.data)

/-- Python `sorted` on strings: a stable sort by `strLeB` (insertion sort;
stability is irrelevant here since sorted inputs have distinct keys). -/
def pySorted (l : List String) : List String :=
  List.insertionSort (fun a b => strLeB a b = true) l

/-- Python `sorted(d.items())` for a dict with distinct keys: sorting the
pairs is sorting by key. -/
def pySortedByKey {α : Type} (l : List (String × α)) : List (String × α) :=
  List.insertionSort (fun a b => strLeB a.1 b.1 = true) l

example : pySorted ["b", "aa", "a"] = ["a", "aa", "b"] := by rfl
example : substrOf ".png" "http://h/x.png?q=1" = true := by rfl
example : intStr (-207) = "-207" := by rfl
example : intStr 200 = "200" := by rfl
example : natOfDigits "077".data = 77 := by rfl

/-! ## URL handling (stdlib collaborators)

`urllib.parse.urlparse` / `parse_qs` are Python stdlib, not repository code;
they are embedded for the URL shapes the script consumes. -/

/-- The components of `urllib.parse.urlparse` the script uses. -/
structure ParsedUrl where
  scheme : String
  netloc : String
  path : String
  query : String

/-- `urllib.parse.urlparse`, modelled for `scheme://netloc/path?query#fragment`
URLs and for scheme-less strings (then scheme and netloc are empty): the
scheme is lower-cased; the netloc runs from after `://` to the first `/`, `?`
or `#`; the fragment is everything after the first `#` of the remainder, the
query everything after its first `?`.  Percent-decoding and bare `scheme:`
(no `//`) forms are not modelled. -/
def urlparse (url : String) : ParsedUrl :=
  let (scheme, rest) :=
    match splitSchemeSep url.data with
    | some p => (p.1.map Char.toLower, p.2)
    | none => ([], url.data)
  let notDelim : Char → Bool := fun c => !(c = '/' || c = '?' || c = '#')
  let (netloc, tailChars) :=
    if scheme.isEmpty then ([], url.data)
    else (rest.takeWhile notDelim, rest.dropWhile notDelim)
  let noFrag := tailChars.takeWhile (fun c => !(c = '#'))
  match splitCharFirst '?' noFrag with
  | some pq => ⟨⟨scheme⟩, ⟨netloc⟩, ⟨pq.1⟩, ⟨pq.2⟩⟩
  | none => ⟨⟨scheme⟩, ⟨netloc⟩, ⟨noFrag⟩, ⟨[]⟩⟩

/-- The parameter dict recorded for an all-digit segment. -/
def intIdParam (n : Int) : Json :=
  .obj [("name", .str "id"), ("in", .str "path"), ("required", .bool true),
        ("schema", .obj [("type", .str "integer")]), ("example", .int n)]

/-- The parameter dict recorded for a UUID-like segment. -/
def uuidIdParam (part : String) : Json :=
  .obj [("name", .str "id"), ("in", .str "path"), ("required", .bool true),
        ("schema", .obj [("type", .str "string"), ("format", .str "uuid")]),
        ("example", .str part)]

/-- One iteration of the segment loop of `normalize_path`: the emitted
(normalized segment, optional `(param_name, parameter dict)`) pair.  All-digit
segments and UUID-like segments (length > 20 with a hyphen, or length 32)
become the `{id}` placeholder; everything else is kept literally. -/
def normSeg (part : String) : String × Option (String × Json) :=
  if part.data.isEmpty then (part, none)
  else if isdigit part then
    ("{id}", some ("id", intIdParam (natOfDigits part.data)))
  else if part.data.length > 20 && (part.data.contains '-' || part.data.length == 32) then
    ("{id}", some ("id", uuidIdParam part))
  else (part, none)

/-- The accumulator update of the segment loop of `normalize_path`: append
the normalized segment, and store the parameter (if any) in the dict. -/
def normStep (acc : List String × List (String × Json)) (part : String) :
    List String × List (String × Json) :=
  let (seg, param?) := normSeg part
  (acc.1 ++ [seg],
   match param? with
   | some kv => dictInsert acc.2 kv.1 kv.2
   | none => acc.2)

/-- `normalize_path(url)` from the source: returns
`(base_url, normalized_path, path_params)`.  `path_params` is a Python dict
keyed by the parameter name (always `"id"`), so a later qualifying segment
overwrites the earlier entry under the same key. -/
def normalize_path (url : String) : String × String × List (String × Json) :=
  let parsed := urlparse url
  let base_url := parsed.scheme ++ "://" ++ parsed.netloc
  let parts := (splitChar '/' parsed.path.data).map (fun cs => (⟨cs⟩ : String))
  let (normalized_parts, path_params) := parts.foldl normStep ([], [])
  (base_url, joinSlash normalized_parts, path_params)

/-- `urllib.parse.parse_qsl` with default flags: the query splits on `&`;
each chunk splits at its first `=`; empty chunks, chunks without `=` and
chunks with an empty value are skipped (`keep_blank_values=False`).
Percent-decoding is not modelled. -/
def parse_qsl (qs : String) : List (String × String) :=
  (splitChar '&' qs.data).foldr (fun chunk acc =>
    if chunk.isEmpty then acc
    else match splitCharFirst '=' chunk with
      | none => acc
      | some kv => if kv.2.isEmpty then acc else ((⟨kv.1⟩ : String), (⟨kv.2⟩ : String)) :: acc) []

/-- `urllib.parse.parse_qs`: group the pair list into a dict key → value
list, keys in first-occurrence order, values in occurrence order. -/
def parse_qs (qs : String) : List (String × List String) :=
  (parse_qsl qs).foldl (fun d kv =>
    match alistGet d kv.1 with
    | some vs => dictInsert d kv.1 (vs ++ [kv.2])
    | none => d ++ [(kv.1, [kv.2])]) []

example : urlparse "https://api.example.com/users/1?x=2&y=3#frag"
    = ⟨"https", "api.example.com", "/users/1", "x=2&y=3"⟩ := by rfl

example : urlparse "/users/3/orders/77" = ⟨"", "", "/users/3/orders/77", ""⟩ := by rfl

example : (normalize_path "https://h/users/3/orders/77").2.1 = "/users/{id}/orders/{id}" := by rfl

example : getField ((normalize_path "https://h/users/3/orders/77").2.2.headD ("", .null)).2 "example"
    = some (.int 77) := by rfl

example : parse_qs "a=1&b=2&a=3&c&d=" = [("a", ["1", "3"]), ("b", ["2"])] := by rfl

/-! ## Captured exchanges and the per-exchange parser -/

/-- The `response` sub-record of a capture record (`request.get("response")`):
`status`, `headers`, `body`, all optional. -/
structure ResponseRec where
  status : Option Int
  headers : List (String × String)
  body : Option String

/-- One captured network exchange, per the input contract: `url`, optional
`method` (default `"GET"`), `requestHeaders`, optional raw `postData`, and an
optional `response` record. -/
structure Exchange where
  url : String
  method : Option String
  requestHeaders : List (String × String)
  postData : Option String
  response : Option ResponseRec

/-- The static-asset exclusion list of `parse_network_request`. -/
def staticExts : List String := [".css", ".js", ".png", ".jpg", ".gif", ".svg", ".woff", ".ttf"]

/-- The skip test: does the URL contain any excluded extension as a
substring (anywhere, not only as a path suffix)? -/
def isStaticAsset (url : String) : Bool := staticExts.any (fun e => substrOf e url)

/-- The dict returned by a successful `parse_network_request`. -/
structure ParsedReq where
  base_url : String
  path : String
  method : String
  path_params : List Json
  query_params : List Json
  request_body : Option Json
  responses : List (String × Json)

/-- The query-parameter dicts built from `parse_qs` output: one per distinct
key, type string, example = the key's first value. -/
def queryParamSpecs (qp : List (String × List String)) : List Json :=
  qp.map (fun kv => .obj [("name", .str kv.1), ("in", .str "query"),
    ("schema", .obj [("type", .str "string")]),
    ("example", .str (kv.2.headD ""))])

/-- The request-body block of `parse_network_request`: a body is interpreted
only when `postData` is truthy (non-empty) and the request header
`content-type` (exact, case-sensitive key) contains `application/json`; a
`json.loads` failure silently omits the body (`except ... pass`). -/
def requestBodyOf (loads : String → Option Json) (request : Exchange) : Option Json :=
  let content_type := (alistGet request.requestHeaders "content-type").getD ""
  match request.postData with
  | none => none
  | some post_data =>
    if post_data.data.isEmpty then none
    else if substrOf "application/json" content_type then
      match loads post_data with
      | some body_json => some (.obj [("content", .obj [("application/json",
          .obj [("schema", infer_schema_from_value body_json false)])])])
      | none => none
    else none

/-- The response block of `parse_network_request`: interpreted only when the
response body is truthy and the response header `content-type` (exact key)
contains `application/json`; keyed by `str(status)` (default 200) on success,
`none` on a `json.loads` failure. -/
def responseSpecOf (loads : String → Option Json) (request : Exchange) :
    Option (List (String × Json)) :=
  let response := request.response.getD ⟨none, [], none⟩
  let response_status := response.status.getD 200
  match response.body with
  | none => none
  | some response_body =>
    if response_body.data.isEmpty then none
    else
      let response_content_type := (alistGet response.headers "content-type").getD ""
      if substrOf "application/json" response_content_type then
        match loads response_body with
        | some response_json => some [(intStr response_status,
            .obj [("description", .str "Successful response"),
                  ("content", .obj [("application/json",
                    .obj [("schema", infer_schema_from_value response_json false)])])])]
        | none => none
      else none

/-- The fallback responses dict: `{"200": {"description": "Successful response"}}`. -/
def generic200 : List (String × Json) :=
  [("200", .obj [("description", .str "Successful response")])]

/-- `parse_network_request(request)` from the source.  `loads` stands for
`json.loads` (`none` = `json.JSONDecodeError`); skip (`None`) exactly on the
static-asset substring test — the outer `try/except` of the source has no
failing operation left in this typed embedding. -/
def parse_network_request (loads : String → Option Json) (request : Exchange) :
    Option ParsedReq :=
  if isStaticAsset request.url then none
  else
    let norm := normalize_path request.url
    some ⟨norm.1, norm.2.1, lowerStr (request.method.getD "GET"),
          norm.2.2.map Prod.snd,
          queryParamSpecs (parse_qs (urlparse request.url).query),
          requestBodyOf loads request,
          (responseSpecOf loads request).getD generic200⟩

/-! ## The aggregator -/

/-- The in-progress aggregation state: the `paths` dict
(path → method → operation dict) and the `servers` set (kept as its
insertion-ordered support; only its sorted form is observable). -/
structure AggState where
  paths : List (String × List (String × Json))
  servers : List String

/-- The operation dict built for a newly seen (path, method) pair: summary,
responses, then `parameters` (path params then query params) only when
non-empty, then `requestBody` only when present. -/
def mkOperation (p : ParsedReq) : Json :=
  let parameters := p.path_params ++ p.query_params
  .obj ([("summary", .str (upperStr p.method ++ " " ++ p.path)),
         ("responses", .obj p.responses)]
    ++ (if parameters.isEmpty then [] else [("parameters", .arr parameters)])
    ++ (match p.request_body with | some rb => [("requestBody", rb)] | none => []))

/-- `param["name"]`: the name of a parameter dict (always a string for
parameters built by this program). -/
def paramName (p : Json) : String :=
  match getField p "name" with
  | some (.str s) => s
  | _ => ""

/-- `op.get("parameters", [])` on an operation dict. -/
def paramsOf (op : Json) : List Json :=
  match getField op "parameters" with
  | some (.arr ps) => ps
  | _ => []

/-- `{p["name"]: p for p in params}`: a dict keyed by parameter name (a later
duplicate name overwrites the earlier entry, in place). -/
def toParamDict (ps : List Json) : List (String × Json) :=
  ps.foldl (fun d p => dictInsert d (paramName p) p) []

/-- The merge loop: each new parameter is added only when its name is not yet
a key of the dict. -/
def addNewParams (d : List (String × Json)) (ps : List Json) : List (String × Json) :=
  ps.foldl (fun d p => if (alistGet d (paramName p)).isSome then d else d ++ [(paramName p, p)]) d

/-- Merging a repeat sighting into a stored operation: rebuild the parameter
dict from the stored list, add the fresh names, and (only when the result is
non-empty) write it back under `"parameters"`; all other keys are untouched. -/
def mergeInto (op : Json) (newParams : List Json) : Json :=
  let merged := addNewParams (toParamDict (paramsOf op)) newParams
  if merged.isEmpty then op
  else match op with
    | .obj fields => .obj (dictInsert fields "parameters" (.arr (merged.map Prod.snd)))
    | other => other

/-- One iteration of the aggregation loop of `generate_openapi_spec`:
skip when the parser returns `None`; otherwise record the server origin and
either merge into the stored operation or store the new one. -/
def aggStep (loads : String → Option Json) (st : AggState) (request : Exchange) : AggState :=
  match parse_network_request loads request with
  | none => st
  | some p =>
    let servers := if p.base_url ∈ st.servers then st.servers else st.servers ++ [p.base_url]
    let parameters := p.path_params ++ p.query_params
    match alistGet st.paths p.path with
    | some methods =>
      match alistGet methods p.method with
      | some existing =>
          ⟨dictInsert st.paths p.path (dictInsert methods p.method (mergeInto existing parameters)),
           servers⟩
      | none =>
          ⟨dictInsert st.paths p.path (dictInsert methods p.method (mkOperation p)), servers⟩
    | none => ⟨dictInsert st.paths p.path [(p.method, mkOperation p)], servers⟩

/-- The aggregation loop over all capture records, from the empty state. -/
def aggregate (loads : String → Option Json) (requests : List Exchange) : AggState :=
  requests.foldl (aggStep loads) ⟨[], []⟩

/-- `generate_openapi_spec(requests, title, version)` from the source:
aggregate, then emit the document with servers sorted and paths sorted by key
(`sorted(paths.items())` on distinct keys is a stable sort by key). -/
def generate_openapi_spec (loads : String → Option Json) (requests : List Exchange)
    (title version : String) : Json :=
  let st := aggregate loads requests
  .obj [("openapi", .str "3.0.0"),
        ("info", .obj [("title", .str title), ("version", .str version),
          ("description", .str "API specification generated from Chrome DevTools network requests")]),
        ("servers", .arr ((pySorted st.servers).map (fun s => .obj [("url", .str s)]))),
        ("paths", .obj ((pySortedByKey st.paths).map (fun pm => (pm.1, Json.obj pm.2))))]

/-! ## Observation helpers and concrete fixtures -/

/-- The operation stored for a (path, method) pair in an aggregation state. -/
def lookupOp (st : AggState) (path method : String) : Option Json :=
  (alistGet st.paths path).bind (fun methods => alistGet methods method)

/-- The parser output of the first exchange in the list that parses to the
given (path, method) pair. -/
def firstParsed (loads : String → Option Json) (path method : String) :
    List Exchange → Option ParsedReq
  | [] => none
  | r :: rs =>
    match parse_network_request loads r with
    | some p =>
      if p.path = path ∧ p.method = method then some p
      else firstParsed loads path method rs
    | none => firstParsed loads path method rs

/-- The `base_url` origins of the exchanges the parser accepts, in input
order (with repetitions). -/
def acceptedOrigins (loads : String → Option Json) (requests : List Exchange) : List String :=
  requests.filterMap (fun r => (parse_network_request loads r).map (fun p => p.base_url))

/-- A `json.loads` stand-in on which every parse fails. -/
def loadsNone : String → Option Json := fun _ => none

/-- A `json.loads` stand-in decoding the concrete bodies the witnesses use
(the script never inspects the body text itself, only the `loads` result,
so opaque body tokens serve as well as JSON text). -/
def loadsW : String → Option Json := fun s =>
  if s = "RA" then some (.int 1)
  else if s = "RB" then some (.int 2)
  else if s = "BODY1" then some (.arr [.bool true])
  else none

/-- An exchange whose query carries a parameter named `id` while its path
also yields the `id` path parameter. -/
def exDupId : Exchange := ⟨"https://h/users/7?id=x", none, [], none, none⟩

/-- An exchange whose request and response bodies both fail to parse as
JSON (under `loadsNone`), with JSON content types. -/
def exBadBody : Exchange :=
  ⟨"https://h/items", none, [("content-type", "application/json")], some "not json",
   some ⟨some 200, [("content-type", "application/json")], some "not json"⟩⟩

/-- An exchange carrying the JSON content type only under differently-cased
header keys, with bodies that `loadsW` decodes. -/
def exCased : Exchange :=
  ⟨"https://h/items", some "POST", [("Content-Type", "application/json")], some "BODY1",
   some ⟨some 201, [("Content-Type", "application/json")], some "BODY1"⟩⟩

/-- An exchange with status 404 and an unparsable JSON response body. -/
def exBad404 : Exchange :=
  ⟨"https://h/f", none, [], none,
   some ⟨some 404, [("content-type", "application/json")], some "XY"⟩⟩

/-- An exchange whose URL contains `.png` in the middle, not as a suffix. -/
def exPng : Exchange := ⟨"https://h/a.pngx/b", none, [], none, none⟩

/-- First of two exchanges on the same (path, method): query key `a`,
response body `RA`. -/
def exA : Exchange :=
  ⟨"https://h/u?a=1", none, [], none,
   some ⟨some 200, [("content-type", "application/json")], some "RA"⟩⟩

/-- Second exchange on the same (path, method): query key `b`, response body
`RB`. -/
def exB : Exchange :=
  ⟨"https://h/u?b=2", none, [], none,
   some ⟨some 200, [("content-type", "application/json")], some "RB"⟩⟩

/-- The parser output for `exBad404` under `loadsNone`. -/
def pBad404 : ParsedReq := ⟨"https://h", "/f", "get", [], [], none, generic200⟩

/-- The parser output for `exCased` under `loadsW`. -/
def pCased : ParsedReq := ⟨"https://h", "/items", "post", [], [], none, generic200⟩

/-- The parser output for `exBadBody` under `loadsNone`. -/
def pBadBody : ParsedReq := ⟨"https://h", "/items", "get", [], [], none, generic200⟩

/-! ## Dictionary lemmas -/

/-- The key list of an association-list dict. -/
def keysOf {α : Type} (d : List (String × α)) : List String := d.map Prod.fst

theorem alistGet_dictInsert_self {α : Type} (d : List (String × α)) (k : String) (v : α) :
    alistGet (dictInsert d k v) k = some v := by
  induction d with
  | nil => simp [dictInsert, alistGet]
  | cons kv rest ih =>
    obtain ⟨k', w⟩ := kv
    by_cases h : k' = k
    · simp [dictInsert, alistGet, h]
    · simp [dictInsert, alistGet, h, ih]

theorem alistGet_dictInsert_ne {α : Type} (d : List (String × α)) (k k' : String) (v : α)
    (h : k' ≠ k) : alistGet (dictInsert d k v) k' = alistGet d k' := by
  induction d with
  | nil =>
    simp only [dictInsert, alistGet]
    rw [if_neg (fun hh => h hh.symm)]
  | cons kv rest ih =>
    obtain ⟨k₀, w⟩ := kv
    by_cases h0 : k₀ = k
    · subst h0
      simp only [dictInsert, if_pos rfl, alistGet]
      rw [if_neg (fun hh => h hh.symm), if_neg (fun hh => h hh.symm)]
    · have step : dictInsert ((k₀, w) :: rest) k v = (k₀, w) :: dictInsert rest k v := by
        simp [dictInsert, h0]
      rw [step]
      simp only [alistGet]
      by_cases h1 : k₀ = k'
      · rw [if_pos h1, if_pos h1]
      · rw [if_neg h1, if_neg h1, ih]

theorem alistGet_append_left {α : Type} (d e : List (String × α)) (k : String) (v : α)
    (h : alistGet d k = some v) : alistGet (d ++ e) k = some v := by
  induction d with
  | nil => simp [alistGet] at h
  | cons kv rest ih =>
    obtain ⟨k₀, w⟩ := kv
    by_cases h0 : k₀ = k
    · simp_all [alistGet]
    · simp_all [alistGet]

theorem alistGet_append_right {α : Type} (d e : List (String × α)) (k : String)
    (h : alistGet d k = none) : alistGet (d ++ e) k = alistGet e k := by
  induction d with
  | nil => simp
  | cons kv rest ih =>
    obtain ⟨k₀, w⟩ := kv
    by_cases h0 : k₀ = k
    · simp_all [alistGet]
    · simp_all [alistGet]

theorem alistGet_eq_none_iff {α : Type} (d : List (String × α)) (k : String) :
    alistGet d k = none ↔ k ∉ keysOf d := by
  induction d with
  | nil => simp [alistGet, keysOf]
  | cons kv rest ih =>
    obtain ⟨k₀, w⟩ := kv
    by_cases h0 : k₀ = k
    · subst h0
      simp [alistGet, keysOf]
    · have hne : ¬ (k = k₀) := fun hh => h0 hh.symm
      simp only [alistGet, if_neg h0, keysOf, List.map_cons, List.mem_cons]
      rw [show (List.map Prod.fst rest) = keysOf rest from rfl, ih]
      tauto

theorem keysOf_dictInsert {α : Type} (d : List (String × α)) (k : String) (v : α) :
    keysOf (dictInsert d k v) = if k ∈ keysOf d then keysOf d else keysOf d ++ [k] := by
  induction d with
  | nil => simp [dictInsert, keysOf]
  | cons kv rest ih =>
    obtain ⟨k₀, w⟩ := kv
    by_cases h0 : k₀ = k
    · subst h0
      simp [dictInsert, keysOf]
    · have step : dictInsert ((k₀, w) :: rest) k v = (k₀, w) :: dictInsert rest k v := by
        simp [dictInsert, h0]
      rw [step]
      have hk : keysOf ((k₀, w) :: dictInsert rest k v) = k₀ :: keysOf (dictInsert rest k v) := rfl
      rw [hk, ih]
      by_cases hm : k ∈ keysOf rest
      · rw [if_pos hm, if_pos (show k ∈ keysOf ((k₀, w) :: rest) from List.mem_cons_of_mem _ hm)]
        rfl
      · rw [if_neg hm, if_neg (show k ∉ keysOf ((k₀, w) :: rest) from by
          intro hc
          rcases List.mem_cons.mp hc with h1 | h2
          · exact h0 h1.symm
          · exact hm h2)]
        rfl

theorem nodup_keys_dictInsert {α : Type} (d : List (String × α)) (k : String) (v : α)
    (h : (keysOf d).Nodup) : (keysOf (dictInsert d k v)).Nodup := by
  rw [keysOf_dictInsert]
  split
  · exact h
  · next hmem => simpa [List.nodup_append] using ⟨h, hmem⟩

theorem getField_mergeInto_ne (op : Json) (ps : List Json) (key : String)
    (h : key ≠ "parameters") : getField (mergeInto op ps) key = getField op key := by
  unfold mergeInto
  by_cases he : (addNewParams (toParamDict (paramsOf op)) ps).isEmpty
  · simp only [he, if_true]
  · simp only [he, if_false]
    cases op with
    | obj fields => simp [getField, alistGet_dictInsert_ne _ _ _ _ h]
    | null => rfl
    | bool b => rfl
    | int n => rfl
    | float lit => rfl
    | str s => rfl
    | arr items => rfl

/-! ## Claim theorems: schema inference -/

/-- C4: `infer_schema_from_value` maps each JSON scalar to the schema kind of
its dynamic type tag — null, boolean, integer, number, string — and a boolean
is classified `"boolean"`, never `"integer"` (the bool-before-int check
order of the source). -/
theorem infer_scalar_kind (ex b : Bool) (n : Int) (lit s : String) :
    getField (infer_schema_from_value .null ex) "type" = some (.str "null")
    ∧ getField (infer_schema_from_value (.bool b) ex) "type" = some (.str "boolean")
    ∧ getField (infer_schema_from_value (.bool b) ex) "type" ≠ some (.str "integer")
    ∧ getField (infer_schema_from_value (.int n) ex) "type" = some (.str "integer")
    ∧ getField (infer_schema_from_value (.float lit) ex) "type" = some (.str "number")
    ∧ getField (infer_schema_from_value (.str s) ex) "type" = some (.str "string") := by
  have hb : getField (infer_schema_from_value (.bool b) ex) "type" = some (.str "boolean") := by
    cases ex <;> rfl
  refine ⟨by cases ex <;> rfl, hb, ?_, by cases ex <;> rfl, by cases ex <;> rfl,
    by cases ex <;> rfl⟩
  rw [hb]
  intro hcontra
  have hs : ("boolean" : String) = "integer" := by
    injection hcontra with h1
    injection h1
  exact absurd hs (by decide)

/-- C5: the item schema of a non-empty array is the inferred schema of the
array's first element, for either value of the example flag. -/
theorem infer_array_items_first (x : Json) (xs : List Json) (ex : Bool) :
    getField (infer_schema_from_value (.arr (x :: xs)) ex) "items"
      = some (infer_schema_from_value x ex) := by
  cases ex <;> rfl

/-! ## Claim theorems: path normalization -/

theorem normSeg_cases (part : String) :
    (normSeg part).2 = none ∨ ∃ v, (normSeg part).2 = some ("id", v) := by
  unfold normSeg
  split
  · exact Or.inl rfl
  · split
    · exact Or.inr ⟨_, rfl⟩
    · split
      · exact Or.inr ⟨_, rfl⟩
      · exact Or.inl rfl

theorem normStep_params (acc : List String × List (String × Json)) (part : String) :
    (normStep acc part).2 = match (normSeg part).2 with
      | some kv => dictInsert acc.2 kv.1 kv.2
      | none => acc.2 := by
  unfold normStep
  rcases normSeg part with ⟨seg, pq⟩
  rfl

theorem normFold_params (parts : List String) (acc : List String × List (String × Json))
    (h : acc.2 = [] ∨ ∃ p, acc.2 = [("id", p)]) :
    (parts.foldl normStep acc).2 = [] ∨ ∃ p, (parts.foldl normStep acc).2 = [("id", p)] := by
  induction parts generalizing acc with
  | nil => exact h
  | cons part rest ih =>
    rw [List.foldl_cons]
    apply ih
    rw [normStep_params]
    rcases normSeg_cases part with hc | ⟨v, hc⟩ <;> rw [hc]
    · exact h
    · show dictInsert acc.2 "id" v = [] ∨ ∃ p, dictInsert acc.2 "id" v = [("id", p)]
      rcases h with h | ⟨q, h⟩ <;> rw [h]
      · exact Or.inr ⟨v, rfl⟩
      · exact Or.inr ⟨v, rfl⟩

/-- C6: `normalize_path` produces at most one path parameter, always named
`"id"`: an all-digit segment yields the integer parameter with the segment's
numeric value as example, a segment longer than 20 characters with a hyphen
or of length 32 yields the string/uuid parameter, and a later qualifying
segment overwrites the earlier entry, so `/users/3/orders/77` yields the
single parameter `id` with example 77. -/
theorem normalize_path_single_id :
    (∀ url, (normalize_path url).2.2 = []
        ∨ ∃ p, (normalize_path url).2.2 = [("id", p)])
    ∧ (∀ part, isdigit part = true →
        normSeg part = ("{id}", some ("id", intIdParam (natOfDigits part.data))))
    ∧ (∀ part, isdigit part = false →
        (part.data.length > 20 && (part.data.contains '-' || part.data.length == 32)) = true →
        normSeg part = ("{id}", some ("id", uuidIdParam part)))
    ∧ (normalize_path "/users/3/orders/77").2
        = ("/users/{id}/orders/{id}", [("id", intIdParam 77)]) := by
  refine ⟨?_, ?_, ?_, by rfl⟩
  · intro url
    unfold normalize_path
    exact normFold_params _ _ (Or.inl rfl)
  · intro part hdig
    have hemp : part.data.isEmpty = false := by
      have h := hdig
      unfold isdigit at h
      rw [Bool.and_eq_true] at h
      simpa using h.1
    unfold normSeg
    simp [hemp, hdig]
  · intro part hdig hlen
    have h1 : 20 < part.data.length := by
      have h := hlen
      rw [Bool.and_eq_true] at h
      simpa using h.1
    have hemp : part.data.isEmpty = false := by
      cases hd : part.data with
      | nil => rw [hd] at h1; simp at h1
      | cons a l => rfl
    unfold normSeg
    simp [hemp, hdig]
    refine ⟨h1, ?_⟩
    intro hnm
    have h2 := hlen
    rw [Bool.and_eq_true] at h2
    have h3 := h2.2
    simp at h3
    rcases h3 with h3 | h3
    · exact absurd h3 hnm
    · exact h3

/-- Witness for C6: the all-digit branch at `"77"`, the UUID branch at a
23-character hyphenated segment, and the at-most-one-parameter fact at a
two-id URL. -/
theorem normalize_path_single_id_witness :
    normSeg "77" = ("{id}", some ("id", intIdParam 77))
    ∧ normSeg "aaaaaaaaaa-aaaaaaaaaaaa"
        = ("{id}", some ("id", uuidIdParam "aaaaaaaaaa-aaaaaaaaaaaa"))
    ∧ ((normalize_path "https://h/users/7/x/9").2.2 = []
        ∨ ∃ p, (normalize_path "https://h/users/7/x/9").2.2 = [("id", p)]) :=
  ⟨normalize_path_single_id.2.1 "77" (by rfl),
   normalize_path_single_id.2.2.1 "aaaaaaaaaa-aaaaaaaaaaaa" (by rfl) (by rfl),
   normalize_path_single_id.1 "https://h/users/7/x/9"⟩

/-! ## Claim theorems: skipping and per-field error recovery -/

theorem parse_eq_some_elim (loads : String → Option Json) (r : Exchange) (p : ParsedReq)
    (hp : parse_network_request loads r = some p) :
    isStaticAsset r.url = false
    ∧ p = ⟨(normalize_path r.url).1, (normalize_path r.url).2.1,
          lowerStr (r.method.getD "GET"),
          (normalize_path r.url).2.2.map Prod.snd,
          queryParamSpecs (parse_qs (urlparse r.url).query),
          requestBodyOf loads r,
          (responseSpecOf loads r).getD generic200⟩ := by
  unfold parse_network_request at hp
  by_cases hsk : isStaticAsset r.url
  · rw [if_pos hsk] at hp
    simp at hp
  · rw [if_neg hsk] at hp
    exact ⟨by simpa using hsk, (Option.some.inj hp).symm⟩

/-- C8: an exchange whose URL contains one of the static-asset extension
strings anywhere as a substring is skipped by the parser, and leaves the
aggregation state — paths, methods, parameters and server origins alike —
and hence the generated document, unchanged. -/
theorem static_asset_skip (loads : String → Option Json) (r : Exchange)
    (h : isStaticAsset r.url = true) :
    parse_network_request loads r = none
    ∧ (∀ st, aggStep loads st r = st)
    ∧ (∀ pre post title version,
        generate_openapi_spec loads (pre ++ r :: post) title version
          = generate_openapi_spec loads (pre ++ post) title version) := by
  have hp : parse_network_request loads r = none := by
    unfold parse_network_request
    rw [if_pos h]
  have hstep : ∀ st, aggStep loads st r = st := by
    intro st
    unfold aggStep
    rw [hp]
  refine ⟨hp, hstep, ?_⟩
  intro pre post title version
  unfold generate_openapi_spec aggregate
  rw [List.foldl_append, List.foldl_append, List.foldl_cons, hstep]

/-- Witness for C8: `.png` occurring mid-URL (not as a suffix) skips the
exchange and leaves the document unchanged. -/
theorem static_asset_skip_witness :
    isStaticAsset exPng.url = true
    ∧ parse_network_request loadsNone exPng = none
    ∧ aggStep loadsNone ⟨[], []⟩ exPng = ⟨[], []⟩
    ∧ generate_openapi_spec loadsNone [exA, exPng] "t" "v"
        = generate_openapi_spec loadsNone [exA] "t" "v" :=
  ⟨rfl, (static_asset_skip loadsNone exPng rfl).1,
   (static_asset_skip loadsNone exPng rfl).2.1 ⟨[], []⟩,
   (static_asset_skip loadsNone exPng rfl).2.2 [exA] [] "t" "v"⟩

theorem responseSpecOf_eq_none (loads : String → Option Json) (r : Exchange)
    (h : ∀ resp body, r.response = some resp → resp.body = some body →
      loads body = none
      ∨ substrOf "application/json" ((alistGet resp.headers "content-type").getD "") = false) :
    responseSpecOf loads r = none := by
  unfold responseSpecOf
  cases hre : r.response with
  | none => rfl
  | some resp =>
    simp only [Option.getD_some]
    cases hb : resp.body with
    | none => rfl
    | some body =>
      by_cases hbe : body.data.isEmpty
      · simp [hbe]
      · rcases h resp body hre hb with hf | hf
        · by_cases hct : substrOf "application/json"
              ((alistGet resp.headers "content-type").getD "") = true
          · simp [hbe, hct, hf]
          · simp [hbe, hct]
        · simp [hbe, hf]

/-- C7: when a non-skipped exchange's response body is present but fails to
parse as JSON, or its response content type does not contain
`application/json`, the operation's responses dict is exactly
`generic200` — keyed `"200"` whatever the observed status code was. -/
theorem unparsable_response_generic (loads : String → Option Json) (r : Exchange)
    (resp : ResponseRec) (body : String) (p : ParsedReq)
    (hresp : r.response = some resp) (hbody : resp.body = some body)
    (hfail : loads body = none
      ∨ substrOf "application/json" ((alistGet resp.headers "content-type").getD "") = false)
    (hp : parse_network_request loads r = some p) :
    p.responses = generic200 := by
  obtain ⟨hsk, hpe⟩ := parse_eq_some_elim loads r p hp
  rw [hpe]
  show (responseSpecOf loads r).getD generic200 = generic200
  rw [responseSpecOf_eq_none loads r ?_]
  · rfl
  · intro resp' body' hre' hb'
    rw [hresp] at hre'
    injection hre' with hre'
    subst hre'
    rw [hbody] at hb'
    injection hb' with hb'
    subst hb'
    exact hfail

/-- Witness for C7: status 404 with an unparsable body still yields the
generic `"200"` entry. -/
theorem unparsable_response_generic_witness : pBad404.responses = generic200 :=
  unparsable_response_generic loadsNone exBad404
    ⟨some 404, [("content-type", "application/json")], some "XY"⟩ "XY" pBad404
    rfl rfl (Or.inl rfl) rfl

theorem requestBodyOf_eq_none_of_no_json_ct (loads : String → Option Json) (r : Exchange)
    (hct : substrOf "application/json" ((alistGet r.requestHeaders "content-type").getD "")
      = false) :
    requestBodyOf loads r = none := by
  unfold requestBodyOf
  cases hpost : r.postData with
  | none => rfl
  | some post_data =>
    by_cases hbe : post_data.data.isEmpty
    · simp [hbe]
    · simp [hbe, hct]

/-- C10: the `content-type` header lookup is exact and case-sensitive: when
the request headers have no key spelled exactly `content-type`, the request
body is omitted even if `postData` is valid JSON; when the response headers
have no such key, the responses fall back to the generic `"200"` entry. -/
theorem content_type_exact_key (loads : String → Option Json) (r : Exchange) (p : ParsedReq)
    (hp : parse_network_request loads r = some p)
    (hreq : alistGet r.requestHeaders "content-type" = none)
    (hresp : ∀ resp, r.response = some resp → alistGet resp.headers "content-type" = none) :
    p.request_body = none ∧ p.responses = generic200 := by
  obtain ⟨hsk, hpe⟩ := parse_eq_some_elim loads r p hp
  rw [hpe]
  constructor
  · show requestBodyOf loads r = none
    apply requestBodyOf_eq_none_of_no_json_ct
    rw [hreq]
    rfl
  · show (responseSpecOf loads r).getD generic200 = generic200
    rw [responseSpecOf_eq_none loads r ?_]
    · rfl
    · intro resp body hre hb
      refine Or.inr ?_
      rw [hresp resp hre]
      rfl

/-- Witness for C10: an exchange whose headers carry the JSON content type
only under `Content-Type` has its (valid-JSON) request body omitted and the
generic `"200"` response entry. -/
theorem content_type_exact_key_witness :
    pCased.request_body = none ∧ pCased.responses = generic200 :=
  content_type_exact_key loadsW exCased pCased rfl rfl
    (fun resp h => by
      rw [show exCased.response
          = some ⟨some 201, [("Content-Type", "application/json")], some "BODY1"⟩ from rfl] at h
      injection h with h
      rw [← h]
      rfl)

/-! ### Reduced forms of one aggregation step -/

theorem aggStep_merge (loads : String → Option Json) (st : AggState) (r : Exchange)
    (p : ParsedReq) (methods : List (String × Json)) (existing : Json)
    (hp : parse_network_request loads r = some p)
    (hpa : alistGet st.paths p.path = some methods)
    (hme : alistGet methods p.method = some existing) :
    aggStep loads st r =
      ⟨dictInsert st.paths p.path (dictInsert methods p.method
          (mergeInto existing (p.path_params ++ p.query_params))),
       if p.base_url ∈ st.servers then st.servers else st.servers ++ [p.base_url]⟩ := by
  unfold aggStep
  rw [hp]
  simp only [hpa, hme]

theorem aggStep_newMethod (loads : String → Option Json) (st : AggState) (r : Exchange)
    (p : ParsedReq) (methods : List (String × Json))
    (hp : parse_network_request loads r = some p)
    (hpa : alistGet st.paths p.path = some methods)
    (hme : alistGet methods p.method = none) :
    aggStep loads st r =
      ⟨dictInsert st.paths p.path (dictInsert methods p.method (mkOperation p)),
       if p.base_url ∈ st.servers then st.servers else st.servers ++ [p.base_url]⟩ := by
  unfold aggStep
  rw [hp]
  simp only [hpa, hme]

theorem aggStep_newPath (loads : String → Option Json) (st : AggState) (r : Exchange)
    (p : ParsedReq)
    (hp : parse_network_request loads r = some p)
    (hpa : alistGet st.paths p.path = none) :
    aggStep loads st r =
      ⟨dictInsert st.paths p.path [(p.method, mkOperation p)],
       if p.base_url ∈ st.servers then st.servers else st.servers ++ [p.base_url]⟩ := by
  unfold aggStep
  rw [hp]
  simp only [hpa]

theorem aggStep_parsed_lookup_isSome (loads : String → Option Json) (st : AggState)
    (r : Exchange) (p : ParsedReq) (hp : parse_network_request loads r = some p) :
    (lookupOp (aggStep loads st r) p.path p.method).isSome = true := by
  cases hpa : alistGet st.paths p.path with
  | some methods =>
    cases hme : alistGet methods p.method with
    | some existing =>
      rw [aggStep_merge loads st r p methods existing hp hpa hme]
      unfold lookupOp
      simp [alistGet_dictInsert_self]
    | none =>
      rw [aggStep_newMethod loads st r p methods hp hpa hme]
      unfold lookupOp
      simp [alistGet_dictInsert_self]
  | none =>
    rw [aggStep_newPath loads st r p hp hpa]
    unfold lookupOp
    simp [alistGet_dictInsert_self, alistGet]

theorem aggStep_parsed_servers (loads : String → Option Json) (st : AggState)
    (r : Exchange) (p : ParsedReq) (hp : parse_network_request loads r = some p) :
    (aggStep loads st r).servers =
      if p.base_url ∈ st.servers then st.servers else st.servers ++ [p.base_url] := by
  cases hpa : alistGet st.paths p.path with
  | some methods =>
    cases hme : alistGet methods p.method with
    | some existing => rw [aggStep_merge loads st r p methods existing hp hpa hme]
    | none => rw [aggStep_newMethod loads st r p methods hp hpa hme]
  | none => rw [aggStep_newPath loads st r p hp hpa]

/-- Counterexample to C3: under `loadsNone` every body fails to parse, yet
`exBadBody` still contributes its server origin `https://h` and a stored
operation at `("/items", "get")` — the exchange is not dropped. -/
theorem parse_failure_not_dropped :
    (aggregate loadsNone [exBadBody]).servers = ["https://h"]
    ∧ (lookupOp (aggregate loadsNone [exBadBody]) "/items" "get").isSome = true :=
  ⟨rfl, rfl⟩

/-- C3 (amended): an exchange whose request or response body text fails to
parse as JSON is not dropped — only the failing field is affected
(`request_body` omitted, responses replaced by the generic `"200"` entry),
and the exchange still contributes its path entry and its server origin. -/
theorem parse_failure_only_omits_field (loads : String → Option Json) (r : Exchange)
    (p : ParsedReq) (hp : parse_network_request loads r = some p) :
    (∀ body, r.postData = some body → loads body = none → p.request_body = none)
    ∧ (∀ resp body, r.response = some resp → resp.body = some body → loads body = none →
        p.responses = generic200)
    ∧ (∀ st, (lookupOp (aggStep loads st r) p.path p.method).isSome = true
        ∧ p.base_url ∈ (aggStep loads st r).servers) := by
  obtain ⟨hsk, hpe⟩ := parse_eq_some_elim loads r p hp
  refine ⟨?_, ?_, ?_⟩
  · intro body hpost hl
    rw [hpe]
    show requestBodyOf loads r = none
    unfold requestBodyOf
    rw [hpost]
    by_cases hbe : body.data.isEmpty
    · simp [hbe]
    · by_cases hct : substrOf "application/json"
          ((alistGet r.requestHeaders "content-type").getD "") = true
      · simp [hbe, hct, hl]
      · simp [hbe, hct]
  · intro resp body hre hb hl
    rw [hpe]
    show (responseSpecOf loads r).getD generic200 = generic200
    rw [responseSpecOf_eq_none loads r ?_]
    · rfl
    · intro resp' body' hre' hb'
      rw [hre] at hre'
      injection hre' with hre'
      subst hre'
      rw [hb] at hb'
      injection hb' with hb'
      subst hb'
      exact Or.inl hl
  · intro st
    refine ⟨aggStep_parsed_lookup_isSome loads st r p hp, ?_⟩
    rw [aggStep_parsed_servers loads st r p hp]
    by_cases hs : p.base_url ∈ st.servers <;> simp [hs]

/-- Witness for the amended C3 at `exBadBody` under `loadsNone`. -/
theorem parse_failure_only_omits_field_witness :
    pBadBody.request_body = none ∧ pBadBody.responses = generic200
    ∧ (lookupOp (aggStep loadsNone ⟨[], []⟩ exBadBody) pBadBody.path pBadBody.method).isSome
        = true
    ∧ pBadBody.base_url ∈ (aggStep loadsNone ⟨[], []⟩ exBadBody).servers :=
  have h := parse_failure_only_omits_field loadsNone exBadBody pBadBody rfl
  ⟨h.1 "not json" rfl rfl,
   h.2.1 ⟨some 200, [("content-type", "application/json")], some "not json"⟩ "not json"
     rfl rfl rfl,
   (h.2.2 ⟨[], []⟩).1, (h.2.2 ⟨[], []⟩).2⟩

/-! ## Claim theorems: parameter-name uniqueness (C2) -/

/-- Counterexample to C2: an exchange whose query string carries a parameter
named `id` while its path also yields the `id` path parameter produces a
stored operation whose parameter list repeats the name `id`. -/
theorem param_names_dup :
    ((lookupOp (aggregate loadsNone [exDupId]) "/users/{id}" "get").map
      (fun op => (paramsOf op).map paramName)) = some ["id", "id"]
    ∧ ¬ (["id", "id"] : List String).Nodup :=
  ⟨rfl, by simp⟩

theorem aggStep_not_parsed (loads : String → Option Json) (st : AggState) (r : Exchange)
    (hp : parse_network_request loads r = none) : aggStep loads st r = st := by
  unfold aggStep
  rw [hp]

theorem dictInsert_name_wf (d : List (String × Json)) (k : String) (v : Json)
    (hd : ∀ kv ∈ d, paramName kv.2 = kv.1) (hv : paramName v = k) :
    ∀ kv ∈ dictInsert d k v, paramName kv.2 = kv.1 := by
  induction d with
  | nil =>
    intro kv hkv
    rcases List.mem_singleton.mp hkv with rfl
    exact hv
  | cons kw rest ih =>
    obtain ⟨k₀, w⟩ := kw
    by_cases h0 : k₀ = k
    · subst h0
      rw [show dictInsert ((k₀, w) :: rest) k₀ v = (k₀, v) :: rest from by simp [dictInsert]]
      intro kv hkv
      rcases List.mem_cons.mp hkv with rfl | hkv
      · exact hv
      · exact hd kv (List.mem_cons_of_mem _ hkv)
    · rw [show dictInsert ((k₀, w) :: rest) k v = (k₀, w) :: dictInsert rest k v from by
        simp [dictInsert, h0]]
      intro kv hkv
      rcases List.mem_cons.mp hkv with rfl | hkv
      · exact hd (k₀, w) (List.mem_cons_self _ _)
      · exact ih (fun kv h => hd kv (List.mem_cons_of_mem _ h)) kv hkv

theorem toParamDict_go_wf (ps : List Json) (d : List (String × Json))
    (hd : ∀ kv ∈ d, paramName kv.2 = kv.1) :
    ∀ kv ∈ ps.foldl (fun d p => dictInsert d (paramName p) p) d, paramName kv.2 = kv.1 := by
  induction ps generalizing d with
  | nil => exact hd
  | cons q qs ih =>
    rw [List.foldl_cons]
    exact ih _ (dictInsert_name_wf d (paramName q) q hd rfl)

theorem toParamDict_go_nodup (ps : List Json) (d : List (String × Json))
    (hd : (keysOf d).Nodup) :
    (keysOf (ps.foldl (fun d p => dictInsert d (paramName p) p) d)).Nodup := by
  induction ps generalizing d with
  | nil => exact hd
  | cons q qs ih =>
    rw [List.foldl_cons]
    exact ih _ (nodup_keys_dictInsert d (paramName q) q hd)

theorem addNewParams_cons (d : List (String × Json)) (q : Json) (qs : List Json) :
    addNewParams d (q :: qs) = addNewParams
      (if (alistGet d (paramName q)).isSome then d else d ++ [(paramName q, q)]) qs := by
  unfold addNewParams
  rw [List.foldl_cons]

theorem addNewParams_wf (ps : List Json) (d : List (String × Json))
    (hd : ∀ kv ∈ d, paramName kv.2 = kv.1) :
    ∀ kv ∈ addNewParams d ps, paramName kv.2 = kv.1 := by
  induction ps generalizing d with
  | nil => exact hd
  | cons q qs ih =>
    rw [addNewParams_cons]
    by_cases hg : (alistGet d (paramName q)).isSome
    · rw [if_pos hg]
      exact ih d hd
    · rw [if_neg hg]
      refine ih _ ?_
      intro kv hkv
      rcases List.mem_append.mp hkv with hkv | hkv
      · exact hd kv hkv
      · rcases List.mem_singleton.mp hkv with rfl
        rfl

theorem addNewParams_nodup_keys (ps : List Json) (d : List (String × Json))
    (hd : (keysOf d).Nodup) : (keysOf (addNewParams d ps)).Nodup := by
  induction ps generalizing d with
  | nil => exact hd
  | cons q qs ih =>
    rw [addNewParams_cons]
    by_cases hg : (alistGet d (paramName q)).isSome
    · rw [if_pos hg]
      exact ih d hd
    · rw [if_neg hg]
      refine ih _ ?_
      have hnone : alistGet d (paramName q) = none := by
        cases hgg : alistGet d (paramName q) with
        | none => rfl
        | some v => rw [hgg] at hg; simp at hg
      have hnotmem : paramName q ∉ keysOf d := (alistGet_eq_none_iff d (paramName q)).mp hnone
      rw [show keysOf (d ++ [(paramName q, q)]) = keysOf d ++ [paramName q] from by
        simp [keysOf]]
      simp [List.nodup_append, hd, hnotmem]

theorem names_of_values (d : List (String × Json))
    (hd : ∀ kv ∈ d, paramName kv.2 = kv.1) :
    (d.map Prod.snd).map paramName = keysOf d := by
  induction d with
  | nil => rfl
  | cons kv rest ih =>
    simp only [List.map_cons, keysOf]
    rw [hd kv (List.mem_cons_self _ _)]
    have := ih (fun kv h => hd kv (List.mem_cons_of_mem _ h))
    rw [keysOf] at this
    rw [this]

theorem mergeInto_names_nodup (op : Json) (ps : List Json)
    (h : ((paramsOf op).map paramName).Nodup) :
    ((paramsOf (mergeInto op ps)).map paramName).Nodup := by
  unfold mergeInto
  by_cases he : (addNewParams (toParamDict (paramsOf op)) ps).isEmpty
  · simp only [he, if_true]
    exact h
  · have he' : (addNewParams (toParamDict (paramsOf op)) ps).isEmpty = false := by
      simpa using he
    simp only [he', Bool.false_eq_true, if_false]
    cases op with
    | obj fields =>
      have hwfd : ∀ kv ∈ toParamDict (paramsOf (Json.obj fields)), paramName kv.2 = kv.1 :=
        toParamDict_go_wf _ [] (by intro kv hkv; simp at hkv)
      have hndd : (keysOf (toParamDict (paramsOf (Json.obj fields)))).Nodup :=
        toParamDict_go_nodup _ [] (by simp [keysOf])
      have hwf := addNewParams_wf ps _ hwfd
      have hnd := addNewParams_nodup_keys ps _ hndd
      show ((paramsOf (Json.obj (dictInsert fields "parameters"
        (.arr ((addNewParams (toParamDict (paramsOf (Json.obj fields))) ps).map
          Prod.snd))))).map paramName).Nodup
      have hpar : paramsOf (Json.obj (dictInsert fields "parameters"
          (.arr ((addNewParams (toParamDict (paramsOf (Json.obj fields))) ps).map Prod.snd))))
          = (addNewParams (toParamDict (paramsOf (Json.obj fields))) ps).map Prod.snd := by
        simp only [paramsOf, getField, alistGet_dictInsert_self]
      rw [hpar, names_of_values _ hwf]
      exact hnd
    | null => exact h
    | bool b => exact h
    | int n => exact h
    | float lit => exact h
    | str s => exact h
    | arr items => exact h

theorem paramsOf_mkOperation (p : ParsedReq) :
    paramsOf (mkOperation p) = if (p.path_params ++ p.query_params).isEmpty then []
      else p.path_params ++ p.query_params := by
  unfold mkOperation paramsOf getField
  by_cases he : (p.path_params ++ p.query_params).isEmpty
  · rw [if_pos he]
    simp only [he, if_true, List.append_nil]
    cases p.request_body <;> simp [alistGet]
  · rw [if_neg he]
    simp only [he, if_false]
    cases p.request_body <;> simp [alistGet]

theorem mkOperation_names_nodup (p : ParsedReq)
    (h : ((p.path_params ++ p.query_params).map paramName).Nodup) :
    ((paramsOf (mkOperation p)).map paramName).Nodup := by
  rw [paramsOf_mkOperation]
  by_cases he : (p.path_params ++ p.query_params).isEmpty
  · simp [he]
  · simp only [he, if_false]
    exact h

theorem aggFold_param_nodup (loads : String → Option Json) (reqs : List Exchange)
    (st : AggState)
    (hst : ∀ path method op, lookupOp st path method = some op →
      ((paramsOf op).map paramName).Nodup)
    (H : ∀ r ∈ reqs, ∀ p, parse_network_request loads r = some p →
      ((p.path_params ++ p.query_params).map paramName).Nodup) :
    ∀ path method op, lookupOp (reqs.foldl (aggStep loads) st) path method = some op →
      ((paramsOf op).map paramName).Nodup := by
  induction reqs generalizing st with
  | nil => exact hst
  | cons r rs ih =>
    rw [List.foldl_cons]
    refine ih _ ?_ (fun r' hr' => H r' (List.mem_cons_of_mem _ hr'))
    intro path method op hop
    cases hp : parse_network_request loads r with
    | none =>
      rw [aggStep_not_parsed loads st r hp] at hop
      exact hst _ _ _ hop
    | some p =>
      have hnew : ((p.path_params ++ p.query_params).map paramName).Nodup :=
        H r (List.mem_cons_self _ _) p hp
      cases hpa : alistGet st.paths p.path with
      | some methods =>
        cases hme : alistGet methods p.method with
        | some existing =>
          rw [aggStep_merge loads st r p methods existing hp hpa hme] at hop
          unfold lookupOp at hop
          by_cases hpath : path = p.path
          · subst hpath
            rw [alistGet_dictInsert_self] at hop
            simp only [Option.bind] at hop
            by_cases hmeth : method = p.method
            · subst hmeth
              rw [alistGet_dictInsert_self] at hop
              obtain rfl := Option.some.inj hop
              refine mergeInto_names_nodup existing _ ?_
              refine hst p.path p.method existing ?_
              unfold lookupOp
              rw [hpa]
              simpa [Option.bind] using hme
            · rw [alistGet_dictInsert_ne _ _ _ _ hmeth] at hop
              refine hst p.path method op ?_
              unfold lookupOp
              rw [hpa]
              simpa [Option.bind] using hop
          · rw [alistGet_dictInsert_ne _ _ _ _ hpath] at hop
            exact hst path method op hop
        | none =>
          rw [aggStep_newMethod loads st r p methods hp hpa hme] at hop
          unfold lookupOp at hop
          by_cases hpath : path = p.path
          · subst hpath
            rw [alistGet_dictInsert_self] at hop
            simp only [Option.bind] at hop
            by_cases hmeth : method = p.method
            · subst hmeth
              rw [alistGet_dictInsert_self] at hop
              obtain rfl := Option.some.inj hop
              exact mkOperation_names_nodup p hnew
            · rw [alistGet_dictInsert_ne _ _ _ _ hmeth] at hop
              refine hst p.path method op ?_
              unfold lookupOp
              rw [hpa]
              simpa [Option.bind] using hop
          · rw [alistGet_dictInsert_ne _ _ _ _ hpath] at hop
            exact hst path method op hop
      | none =>
        rw [aggStep_newPath loads st r p hp hpa] at hop
        unfold lookupOp at hop
        by_cases hpath : path = p.path
        · subst hpath
          rw [alistGet_dictInsert_self] at hop
          simp only [Option.bind] at hop
          by_cases hmeth : method = p.method
          · subst hmeth
            rw [show alistGet [(p.method, mkOperation p)] p.method = some (mkOperation p)
              from by simp [alistGet]] at hop
            obtain rfl := Option.some.inj hop
            exact mkOperation_names_nodup p hnew
          · rw [show alistGet [(p.method, mkOperation p)] method = none from by
              have hne : ¬ (p.method = method) := fun hh => hmeth hh.symm
              simp [alistGet, hne]] at hop
            cases hop
        · rw [alistGet_dictInsert_ne _ _ _ _ hpath] at hop
          exact hst path method op hop

/-- C2 (amended): whenever no parsed exchange itself carries duplicate
parameter names (in particular no query-string parameter named `id` next to
a path `id` parameter — the one way the parser can emit a duplicate), every
operation stored in the aggregated specification has pairwise-distinct
parameter names.  (Without that proviso the claim fails: see the
counterexample, where a query `?id=x` on a path with a numeric segment
stores the name `id` twice.) -/
theorem aggregate_param_names_nodup (loads : String → Option Json) (reqs : List Exchange)
    (H : ∀ r ∈ reqs, ∀ p, parse_network_request loads r = some p →
      ((p.path_params ++ p.query_params).map paramName).Nodup) :
    ∀ path method op, lookupOp (aggregate loads reqs) path method = some op →
      ((paramsOf op).map paramName).Nodup :=
  aggFold_param_nodup loads reqs ⟨[], []⟩
    (fun path method op hop => by simp [lookupOp, alistGet] at hop) H

/-- Witness for the amended C2: on the concrete run `[exA]` the stored
operation's parameter names are `["a"]`, pairwise distinct. -/
theorem aggregate_param_names_nodup_witness :
    ((paramsOf ((lookupOp (aggregate loadsW [exA]) "/u" "get").getD Json.null)).map
      paramName).Nodup :=
  aggregate_param_names_nodup loadsW [exA]
    (by
      intro r hr p hp
      simp only [List.mem_singleton] at hr
      subst hr
      have hpp := Option.some.inj hp
      rw [← hpp]
      decide)
    "/u" "get" ((lookupOp (aggregate loadsW [exA]) "/u" "get").getD Json.null) rfl

/-! ## Claim theorems: sorted servers and paths (C9) -/

theorem charListLt_head_le (a0 b0 : Char) (as bs : List Char)
    (h : charListLt (a0 :: as) (b0 :: bs) = true) : a0.toNat ≤ b0.toNat := by
  simp only [charListLt] at h
  by_cases h1 : a0.toNat < b0.toNat
  · omega
  · by_cases h2 : b0.toNat < a0.toNat
    · rw [if_neg h1, if_pos h2] at h
      cases h
    · omega

theorem charListLt_tail (a0 b0 : Char) (as bs : List Char)
    (h : charListLt (a0 :: as) (b0 :: bs) = true) (he : a0.toNat = b0.toNat) :
    charListLt as bs = true := by
  simp only [charListLt] at h
  rw [if_neg (by omega), if_neg (by omega)] at h
  exact h

theorem charListLt_trans : ∀ a b c : List Char,
    charListLt a b = true → charListLt b c = true → charListLt a c = true := by
  intro a
  induction a with
  | nil =>
    intro b c h1 h2
    cases c with
    | nil =>
      cases b with
      | nil => simp [charListLt] at h1
      | cons b0 bs => simp [charListLt] at h2
    | cons c0 cs => rfl
  | cons a0 as ih =>
    intro b c h1 h2
    cases b with
    | nil => simp [charListLt] at h1
    | cons b0 bs =>
      cases c with
      | nil => simp [charListLt] at h2
      | cons c0 cs =>
        have hab := charListLt_head_le a0 b0 as bs h1
        have hbc := charListLt_head_le b0 c0 bs cs h2
        simp only [charListLt]
        by_cases hac : a0.toNat < c0.toNat
        · rw [if_pos hac]
        · rw [if_neg hac, if_neg (by omega)]
          have he1 : a0.toNat = b0.toNat := by omega
          have he2 : b0.toNat = c0.toNat := by omega
          exact ih bs cs (charListLt_tail _ _ _ _ h1 he1) (charListLt_tail _ _ _ _ h2 he2)

theorem charListLt_head_ge (a0 b0 : Char) (as bs : List Char)
    (h : charListLt (a0 :: as) (b0 :: bs) = false) : b0.toNat ≤ a0.toNat := by
  simp only [charListLt] at h
  by_cases h1 : a0.toNat < b0.toNat
  · rw [if_pos h1] at h
    cases h
  · omega

theorem charListLt_tail_false (a0 b0 : Char) (as bs : List Char)
    (h : charListLt (a0 :: as) (b0 :: bs) = false) (he : a0.toNat = b0.toNat) :
    charListLt as bs = false := by
  simp only [charListLt] at h
  rw [if_neg (by omega), if_neg (by omega)] at h
  exact h

theorem charListLt_neg_trans : ∀ a b c : List Char,
    charListLt b a = false → charListLt c b = false → charListLt c a = false := by
  intro a
  induction a with
  | nil =>
    intro b c h1 h2
    cases c <;> rfl
  | cons a0 as ih =>
    intro b c h1 h2
    cases c with
    | nil =>
      cases b with
      | nil => cases h1
      | cons b0 bs => cases h2
    | cons c0 cs =>
      cases b with
      | nil => cases h1
      | cons b0 bs =>
        have hba := charListLt_head_ge b0 a0 bs as h1
        have hcb := charListLt_head_ge c0 b0 cs bs h2
        simp only [charListLt]
        rw [if_neg (by omega)]
        by_cases hac : a0.toNat < c0.toNat
        · rw [if_pos hac]
        · rw [if_neg hac]
          exact ih bs cs (charListLt_tail_false b0 a0 bs as h1 (by omega))
            (charListLt_tail_false c0 b0 cs bs h2 (by omega))

theorem charListLt_irrefl : ∀ a : List Char, charListLt a a = false := by
  intro a
  induction a with
  | nil => rfl
  | cons a0 as ih =>
    simp only [charListLt]
    rw [if_neg (by omega), if_neg (by omega)]
    exact ih

theorem strLeB_false_of_true {a b : List Char} (h : (!charListLt a b) = true) :
    charListLt a b = false := by
  cases hh : charListLt a b with
  | false => rfl
  | true => rw [hh] at h; cases h

theorem strLeB_trans (a b c : String) (h1 : strLeB a b = true) (h2 : strLeB b c = true) :
    strLeB a c = true := by
  unfold strLeB at h1 h2 ⊢
  have h1' := strLeB_false_of_true h1
  have h2' := strLeB_false_of_true h2
  rw [charListLt_neg_trans a.data b.data c.data h1' h2']
  rfl

theorem strLeB_total (a b : String) : strLeB a b = true ∨ strLeB b a = true := by
  unfold strLeB
  cases hba : charListLt b.data a.data with
  | false => exact Or.inl rfl
  | true =>
    refine Or.inr ?_
    cases hab : charListLt a.data b.data with
    | false => rfl
    | true =>
      exfalso
      have := charListLt_trans _ _ _ hba hab
      rw [charListLt_irrefl b.data] at this
      cases this

theorem pySorted_pairwise (l : List String) :
    (pySorted l).Pairwise (fun a b => strLeB a b = true) := by
  unfold pySorted
  exact @List.sorted_insertionSort String (fun a b => strLeB a b = true) _
    ⟨strLeB_total⟩ ⟨strLeB_trans⟩ l

theorem pySorted_perm (l : List String) : (pySorted l).Perm l :=
  List.perm_insertionSort _ l

theorem pySortedByKey_pairwise {α : Type} (l : List (String × α)) :
    (pySortedByKey l).Pairwise (fun a b => strLeB a.1 b.1 = true) := by
  unfold pySortedByKey
  exact @List.sorted_insertionSort (String × α) (fun a b => strLeB a.1 b.1 = true) _
    ⟨fun a b => strLeB_total a.1 b.1⟩ ⟨fun a b c h1 h2 => strLeB_trans a.1 b.1 c.1 h1 h2⟩ l

theorem acceptedOrigins_cons_none (loads : String → Option Json) (r : Exchange)
    (rs : List Exchange) (hp : parse_network_request loads r = none) :
    acceptedOrigins loads (r :: rs) = acceptedOrigins loads rs := by
  unfold acceptedOrigins
  rw [List.filterMap_cons]
  simp [hp]

theorem acceptedOrigins_cons_some (loads : String → Option Json) (r : Exchange)
    (rs : List Exchange) (p : ParsedReq) (hp : parse_network_request loads r = some p) :
    acceptedOrigins loads (r :: rs) = p.base_url :: acceptedOrigins loads rs := by
  unfold acceptedOrigins
  rw [List.filterMap_cons]
  simp [hp]

theorem aggFold_servers_mem (loads : String → Option Json) (reqs : List Exchange)
    (st : AggState) (s : String) :
    s ∈ (reqs.foldl (aggStep loads) st).servers
      ↔ s ∈ st.servers ∨ s ∈ acceptedOrigins loads reqs := by
  induction reqs generalizing st with
  | nil => simp [acceptedOrigins]
  | cons r rs ih =>
    rw [List.foldl_cons, ih]
    cases hp : parse_network_request loads r with
    | none =>
      rw [aggStep_not_parsed loads st r hp, acceptedOrigins_cons_none loads r rs hp]
    | some p =>
      rw [aggStep_parsed_servers loads st r p hp, acceptedOrigins_cons_some loads r rs p hp]
      have hmem : s ∈ (if p.base_url ∈ st.servers then st.servers
          else st.servers ++ [p.base_url]) ↔ (s ∈ st.servers ∨ s = p.base_url) := by
        by_cases hb : p.base_url ∈ st.servers
        · rw [if_pos hb]
          exact ⟨Or.inl, fun h => h.elim id (fun he => he ▸ hb)⟩
        · rw [if_neg hb]
          simp [List.mem_append]
      rw [hmem]
      simp only [List.mem_cons]
      tauto

theorem aggFold_servers_nodup (loads : String → Option Json) (reqs : List Exchange)
    (st : AggState) (h : st.servers.Nodup) :
    (reqs.foldl (aggStep loads) st).servers.Nodup := by
  induction reqs generalizing st with
  | nil => exact h
  | cons r rs ih =>
    rw [List.foldl_cons]
    refine ih _ ?_
    cases hp : parse_network_request loads r with
    | none =>
      rw [aggStep_not_parsed loads st r hp]
      exact h
    | some p =>
      rw [aggStep_parsed_servers loads st r p hp]
      by_cases hb : p.base_url ∈ st.servers
      · rw [if_pos hb]
        exact h
      · rw [if_neg hb]
        simp [List.nodup_append, h, hb]

/-- C9: the output document's `servers` field is the accepted exchanges'
distinct origins, duplicate-free and sorted lexicographically, and the
`paths` field lists its paths in lexicographic key order. -/
theorem servers_sorted_paths_sorted (loads : String → Option Json) (reqs : List Exchange)
    (title version : String) :
    getField (generate_openapi_spec loads reqs title version) "servers"
      = some (.arr ((pySorted (aggregate loads reqs).servers).map
          (fun s => .obj [("url", .str s)])))
    ∧ (pySorted (aggregate loads reqs).servers).Nodup
    ∧ (pySorted (aggregate loads reqs).servers).Pairwise (fun a b => strLeB a b = true)
    ∧ (∀ s, s ∈ pySorted (aggregate loads reqs).servers ↔ s ∈ acceptedOrigins loads reqs)
    ∧ getField (generate_openapi_spec loads reqs title version) "paths"
      = some (.obj ((pySortedByKey (aggregate loads reqs).paths).map
          (fun pm => (pm.1, Json.obj pm.2))))
    ∧ (pySortedByKey (aggregate loads reqs).paths).Pairwise
        (fun a b => strLeB a.1 b.1 = true) := by
  refine ⟨rfl, ?_, pySorted_pairwise _, ?_, rfl, pySortedByKey_pairwise _⟩
  · exact ((pySorted_perm _).nodup_iff).mpr
      (aggFold_servers_nodup loads reqs ⟨[], []⟩ List.nodup_nil)
  · intro s
    rw [(pySorted_perm _).mem_iff]
    unfold aggregate
    rw [aggFold_servers_mem loads reqs ⟨[], []⟩ s]
    simp

/-! ## Claim theorems: first-seen-wins merge (C1) -/

theorem getField_mkOperation_responses (p : ParsedReq) :
    getField (mkOperation p) "responses" = some (.obj p.responses) := by
  unfold mkOperation getField
  by_cases he : (p.path_params ++ p.query_params).isEmpty <;>
    cases p.request_body <;> simp [he, alistGet]

theorem getField_mkOperation_requestBody (p : ParsedReq) :
    getField (mkOperation p) "requestBody" = p.request_body := by
  unfold mkOperation getField
  by_cases he : (p.path_params ++ p.query_params).isEmpty <;>
    cases p.request_body <;> simp [he, alistGet]

theorem addNewParams_preserves (ps : List Json) (d : List (String × Json)) (k : String)
    (v : Json) (h : alistGet d k = some v) : alistGet (addNewParams d ps) k = some v := by
  induction ps generalizing d with
  | nil => exact h
  | cons q qs ih =>
    rw [addNewParams_cons]
    by_cases hg : (alistGet d (paramName q)).isSome
    · rw [if_pos hg]
      exact ih d h
    · rw [if_neg hg]
      exact ih _ (alistGet_append_left d _ k v h)

theorem addNewParams_fresh (d : List (String × Json)) (q : Json) (qs : List Json)
    (h : alistGet d (paramName q) = none) :
    alistGet (addNewParams d (q :: qs)) (paramName q) = some q := by
  rw [addNewParams_cons, if_neg (by rw [h]; simp)]
  refine addNewParams_preserves qs _ _ _ ?_
  rw [alistGet_append_right d _ _ h]
  simp [alistGet]

theorem lookupOp_aggStep_other (loads : String → Option Json) (st : AggState) (r : Exchange)
    (p' : ParsedReq) (hp : parse_network_request loads r = some p') (path method : String)
    (hpm : ¬ (p'.path = path ∧ p'.method = method)) :
    lookupOp (aggStep loads st r) path method = lookupOp st path method := by
  cases hpa : alistGet st.paths p'.path with
  | some methods =>
    cases hme : alistGet methods p'.method with
    | some existing =>
      rw [aggStep_merge loads st r p' methods existing hp hpa hme]
      unfold lookupOp
      by_cases hpath : path = p'.path
      · subst hpath
        rw [alistGet_dictInsert_self, hpa]
        simp only [Option.bind]
        have hmeth : ¬ method = p'.method := fun hm => hpm ⟨rfl, hm.symm⟩
        rw [alistGet_dictInsert_ne _ _ _ _ hmeth]
      · rw [alistGet_dictInsert_ne _ _ _ _ hpath]
    | none =>
      rw [aggStep_newMethod loads st r p' methods hp hpa hme]
      unfold lookupOp
      by_cases hpath : path = p'.path
      · subst hpath
        rw [alistGet_dictInsert_self, hpa]
        simp only [Option.bind]
        have hmeth : ¬ method = p'.method := fun hm => hpm ⟨rfl, hm.symm⟩
        rw [alistGet_dictInsert_ne _ _ _ _ hmeth]
      · rw [alistGet_dictInsert_ne _ _ _ _ hpath]
  | none =>
    rw [aggStep_newPath loads st r p' hp hpa]
    unfold lookupOp
    by_cases hpath : path = p'.path
    · subst hpath
      rw [alistGet_dictInsert_self, hpa]
      simp only [Option.bind]
      have hmeth : ¬ p'.method = method := fun hm => hpm ⟨rfl, hm⟩
      simp [alistGet, hmeth]
    · rw [alistGet_dictInsert_ne _ _ _ _ hpath]

theorem aggFold_first_wins (loads : String → Option Json) (reqs : List Exchange)
    (st : AggState) (path method : String) (op : Json)
    (hop : lookupOp (reqs.foldl (aggStep loads) st) path method = some op) :
    (∃ op₀, lookupOp st path method = some op₀
      ∧ getField op "summary" = getField op₀ "summary"
      ∧ getField op "responses" = getField op₀ "responses"
      ∧ getField op "requestBody" = getField op₀ "requestBody")
    ∨ (lookupOp st path method = none
      ∧ ∃ p, firstParsed loads path method reqs = some p
        ∧ getField op "summary" = getField (mkOperation p) "summary"
        ∧ getField op "responses" = getField (mkOperation p) "responses"
        ∧ getField op "requestBody" = getField (mkOperation p) "requestBody") := by
  induction reqs generalizing st with
  | nil => exact Or.inl ⟨op, hop, rfl, rfl, rfl⟩
  | cons r rs ih =>
    rw [List.foldl_cons] at hop
    rcases ih (aggStep loads st r) hop with ⟨op₀, hop₀, e1, e2, e3⟩ | ⟨hnone, p, hfp, e1, e2, e3⟩
    · cases hp : parse_network_request loads r with
      | none =>
        rw [aggStep_not_parsed loads st r hp] at hop₀
        exact Or.inl ⟨op₀, hop₀, e1, e2, e3⟩
      | some p' =>
        by_cases hpm : p'.path = path ∧ p'.method = method
        · obtain ⟨hpp, hmm2⟩ := hpm
          subst hpp
          subst hmm2
          cases hpa : alistGet st.paths p'.path with
          | some methods =>
            cases hme : alistGet methods p'.method with
            | some existing =>
              rw [aggStep_merge loads st r p' methods existing hp hpa hme] at hop₀
              unfold lookupOp at hop₀
              rw [alistGet_dictInsert_self] at hop₀
              simp only [Option.bind] at hop₀
              rw [alistGet_dictInsert_self] at hop₀
              obtain rfl := Option.some.inj hop₀
              refine Or.inl ⟨existing, ?_, ?_, ?_, ?_⟩
              · unfold lookupOp
                rw [hpa]
                simpa [Option.bind] using hme
              · rw [e1, getField_mergeInto_ne existing _ _ (by decide)]
              · rw [e2, getField_mergeInto_ne existing _ _ (by decide)]
              · rw [e3, getField_mergeInto_ne existing _ _ (by decide)]
            | none =>
              rw [aggStep_newMethod loads st r p' methods hp hpa hme] at hop₀
              unfold lookupOp at hop₀
              rw [alistGet_dictInsert_self] at hop₀
              simp only [Option.bind] at hop₀
              rw [alistGet_dictInsert_self] at hop₀
              obtain rfl := Option.some.inj hop₀
              refine Or.inr ⟨?_, p', ?_, e1, e2, e3⟩
              · unfold lookupOp
                rw [hpa]
                simpa [Option.bind] using hme
              · unfold firstParsed
                rw [hp]
                show (if p'.path = p'.path ∧ p'.method = p'.method then some p'
                  else firstParsed loads p'.path p'.method rs) = some p'
                rw [if_pos ⟨rfl, rfl⟩]
          | none =>
            rw [aggStep_newPath loads st r p' hp hpa] at hop₀
            unfold lookupOp at hop₀
            rw [alistGet_dictInsert_self] at hop₀
            simp only [Option.bind] at hop₀
            rw [show alistGet [(p'.method, mkOperation p')] p'.method = some (mkOperation p')
              from by simp [alistGet]] at hop₀
            obtain rfl := Option.some.inj hop₀
            refine Or.inr ⟨?_, p', ?_, e1, e2, e3⟩
            · unfold lookupOp
              rw [hpa]
              rfl
            · unfold firstParsed
              rw [hp]
              show (if p'.path = p'.path ∧ p'.method = p'.method then some p'
                else firstParsed loads p'.path p'.method rs) = some p'
              rw [if_pos ⟨rfl, rfl⟩]
        · rw [lookupOp_aggStep_other loads st r p' hp path method hpm] at hop₀
          exact Or.inl ⟨op₀, hop₀, e1, e2, e3⟩
    · cases hp : parse_network_request loads r with
      | none =>
        rw [aggStep_not_parsed loads st r hp] at hnone
        refine Or.inr ⟨hnone, p, ?_, e1, e2, e3⟩
        unfold firstParsed
        rw [hp]
        exact hfp
      | some p' =>
        by_cases hpm : p'.path = path ∧ p'.method = method
        · exfalso
          obtain ⟨hpp, hmm2⟩ := hpm
          have hiss := aggStep_parsed_lookup_isSome loads st r p' hp
          rw [hpp, hmm2, hnone] at hiss
          cases hiss
        · rw [lookupOp_aggStep_other loads st r p' hp path method hpm] at hnone
          refine Or.inr ⟨hnone, p, ?_, e1, e2, e3⟩
          unfold firstParsed
          rw [hp]
          show (if p'.path = path ∧ p'.method = method then some p'
            else firstParsed loads path method rs) = some p
          rw [if_neg hpm]
          exact hfp

/-- C1: when a (path, method) pair recurs, only the stored operation's
parameter list changes — an already-present parameter name keeps its stored
entry, a fresh name is appended — while every key other than `"parameters"`
of the stored operation is untouched, so the stored `responses` and
`requestBody` always equal those of the first exchange that produced the
pair. -/
theorem aggregate_first_wins (loads : String → Option Json) (reqs : List Exchange)
    (path method : String) (op : Json)
    (hop : lookupOp (aggregate loads reqs) path method = some op) :
    (∃ p, firstParsed loads path method reqs = some p
      ∧ getField op "summary" = getField (mkOperation p) "summary"
      ∧ getField op "responses" = some (.obj p.responses)
      ∧ getField op "requestBody" = p.request_body)
    ∧ (∀ op' ps key, key ≠ "parameters" →
        getField (mergeInto op' ps) key = getField op' key)
    ∧ (∀ d (ps : List Json) k v, alistGet d k = some v →
        alistGet (addNewParams d ps) k = some v)
    ∧ (∀ d (q : Json) (qs : List Json), alistGet d (paramName q) = none →
        alistGet (addNewParams d (q :: qs)) (paramName q) = some q) := by
  refine ⟨?_, getField_mergeInto_ne, fun d ps k v h => addNewParams_preserves ps d k v h,
    addNewParams_fresh⟩
  unfold aggregate at hop
  rcases aggFold_first_wins loads reqs ⟨[], []⟩ path method op hop with
    ⟨op₀, hop₀, _⟩ | ⟨_, p, hfp, e1, e2, e3⟩
  · exact absurd hop₀ (by simp [lookupOp, alistGet])
  · refine ⟨p, hfp, e1, ?_, ?_⟩
    · rw [e2, getField_mkOperation_responses]
    · rw [e3, getField_mkOperation_requestBody]

/-- Witness for C1: two exchanges on the same (path, method) with different
response bodies — the stored responses carry the FIRST exchange's inferred
schema (integer, from body `RA`), a stored parameter entry survives a merge
attempt, a fresh parameter name is appended, and a merge leaves the
`responses` key untouched. -/
theorem aggregate_first_wins_witness :
    getField ((lookupOp (aggregate loadsW [exA, exB]) "/u" "get").getD Json.null) "responses"
        = some (.obj [("200", .obj [("description", .str "Successful response"),
            ("content", .obj [("application/json",
              .obj [("schema", .obj [("type", .str "integer")])])])])])
    ∧ alistGet (addNewParams [("a", Json.str "x")]
        [Json.obj [("name", .str "a")]]) "a" = some (Json.str "x")
    ∧ alistGet (addNewParams [] [Json.obj [("name", .str "b")]]) "b"
        = some (Json.obj [("name", .str "b")])
    ∧ getField (mergeInto (Json.obj [("responses", Json.null)]) []) "responses"
        = getField (Json.obj [("responses", Json.null)]) "responses" := by
  have h := aggregate_first_wins loadsW [exA, exB] "/u" "get"
    ((lookupOp (aggregate loadsW [exA, exB]) "/u" "get").getD Json.null) rfl
  obtain ⟨⟨p, hfp, hs, hr, hb⟩, hmerge, hpre, hfresh⟩ := h
  refine ⟨?_, hpre [("a", Json.str "x")] [Json.obj [("name", .str "a")]] "a" (Json.str "x") rfl,
    hfresh [] (Json.obj [("name", .str "b")]) [] rfl,
    hmerge (Json.obj [("responses", Json.null)]) [] "responses" (by decide)⟩
  rw [hr]
  have hpp := Option.some.inj hfp
  rw [← hpp]
  rfl
